import Mathlib

/-!
Verification of the drawing-blueprint step-generation pipeline.

The definitions below are shallow embeddings of the Python modules under
backend/app/core: tone_mapper, shading_mapper, contour_analyzer,
step_planner, blueprint_engine, canvas_renderer and step_generator.
Machine floats are modelled by exact rationals (and reals where a square
root occurs); numpy arrays by lists; external OpenCV measurements
(contour area, perimeter, moments, blur) are carried as explicit inputs.
-/

namespace ToneMapper

/-- Default tone band thresholds of tone_mapper.py: tuples of
(label, low_threshold, high_threshold, mask_value) on 0-255 grayscale. -/
def DEFAULT_BANDS : List (String × ℕ × ℕ × ℕ) :=
  [("deep_shadow", 0, 80, 0),
   ("mid_tone", 81, 180, 1),
   ("highlight", 181, 255, 2)]

/-- Per-pixel band assignment of generate_tone_mask: the mask starts at 2
(default to highlight) and each band in order overwrites pixels whose
intensity lies in [low, high] with the band mask_value (cv2.inRange is
inclusive on both ends). -/
def bandValue (bands : List (String × ℕ × ℕ × ℕ)) (v : ℕ) : ℕ :=
  bands.foldl (fun m b => if b.2.1 ≤ v ∧ v ≤ b.2.2.1 then b.2.2.2 else m) 2

/-- Mask construction of generate_tone_mask, applied to the smoothed
grayscale intensities (the Gaussian blur is an external cv2 call; its
uint8 output pixels are the input list here). -/
def generate_tone_mask (smoothed : List ℕ)
    (bands : List (String × ℕ × ℕ × ℕ) := DEFAULT_BANDS) : List ℕ :=
  smoothed.map (bandValue bands)

/-- Python round(x, 1): one decimal digit, half rounded up in this model. -/
def round1 (x : ℚ) : ℚ := (⌊x * 10 + 1 / 2⌋ : ℤ) / 10

/-- Summary of tone distribution from tone_mapper.tone_summary: for each of
the three mask values, the percentage of pixels holding it, rounded to one
decimal. -/
def tone_summary (mask : List ℕ) : ℚ × ℚ × ℚ :=
  let total : ℚ := mask.length
  (round1 ((mask.count 0 : ℚ) / total * 100),
   round1 ((mask.count 1 : ℚ) / total * 100),
   round1 ((mask.count 2 : ℚ) / total * 100))

end ToneMapper

namespace ShadingMapper

/-- Default band table of shading_mapper.py: (label, low, high) triples. -/
def DEFAULT_BANDS : List (String × ℕ × ℕ) :=
  [("deep_shadow", 0, 63),
   ("mid_tone", 64, 191),
   ("highlight", 192, 255)]

/-- Labels of the bands whose cv2.inRange mask contains a pixel of
intensity v; map_shading thresholds each band independently, so a pixel
contributes to the regions of exactly these bands. -/
def bandsContaining (bands : List (String × ℕ × ℕ)) (v : ℕ) : List String :=
  (bands.filter (fun b => b.2.1 ≤ v ∧ v ≤ b.2.2)).map (fun b => b.1)

end ShadingMapper

namespace ContourAnalyzer

/-- AnalyzedContour of contour_analyzer.py: one contour with computed
metrics and normalised points; floats are modelled by rationals. -/
structure AnalyzedContour where
  points_normalised : List (ℚ × ℚ)
  area : ℚ
  perimeter : ℚ
  depth : ℕ
  parent_idx : ℤ
  centroid : ℚ × ℚ
  tier : String
  importance_score : ℚ
deriving DecidableEq, Repr

/-- Raw extracted contour as handed over by cv2.findContours together with
the external OpenCV measurements taken of it in analyze_contours
(cv2.contourArea, cv2.arcLength, cv2.moments centroid), in pixel units. -/
structure RawContour where
  points : List (ℚ × ℚ)
  area_px : ℚ
  perimeter_px : ℚ
  centroid_px : ℚ × ℚ
deriving DecidableEq, Repr

/-- Tier label from hierarchy depth, following classify_tier of
contour_analyzer.py. -/
def _classify_tier (depth : ℕ) : String :=
  if depth = 0 then "outer"
  else if depth ≤ 2 then "inner"
  else "detail"

/-- Parent-link walk of compute_depth with explicit fuel; the hierarchy
list holds each contour index to the parent index recorded by
cv2.findContours (-1 when there is no parent).  cv2 guarantees the parent
links are acyclic, so fuel equal to the list length never runs out. -/
def depthWalk (hierarchy : List ℤ) : ℕ → ℕ → ℕ
  | 0, _ => 0
  | fuel + 1, current =>
    let p := hierarchy.getD current (-1)
    if p = -1 then 0 else depthWalk hierarchy fuel p.toNat + 1

/-- Hierarchy depth of contour idx, walking parent links to the root. -/
def _compute_depth (hierarchy : List ℤ) (idx : ℕ) : ℕ :=
  depthWalk hierarchy hierarchy.length idx

/-- Python enumerate starting at n, used to model indexed loops. -/
def enumerate : ℕ → List α → List (ℕ × α)
  | _, [] => []
  | n, a :: t => (n, a) :: enumerate (n + 1) t

/-- Analysis loop of analyze_contours before the final sort: filter noise
contours below the area floor, then compute depth, tier, parent index,
normalised measures and the composite importance score. -/
def analyzedList (h w : ℕ) (contours : List RawContour) (hierarchy : List ℤ)
    (min_area_fraction : ℚ) : List AnalyzedContour :=
  let image_area : ℚ := (h : ℚ) * (w : ℚ)
  let min_area_px : ℚ := image_area * min_area_fraction
  (enumerate 0 contours).filterMap (fun ic =>
    if ic.2.area_px < min_area_px then none
    else
      let depth := _compute_depth hierarchy ic.1
      let tier := _classify_tier depth
      let parent_idx := hierarchy.getD ic.1 (-1)
      let area_norm := ic.2.area_px / image_area
      let perimeter_norm := ic.2.perimeter_px / ((max w h : ℕ) : ℚ)
      let centroid := (ic.2.centroid_px.1 / (w : ℚ), ic.2.centroid_px.2 / (h : ℚ))
      let pts := ic.2.points.map (fun p => (p.1 / (w : ℚ), p.2 / (h : ℚ)))
      let depth_weight : ℚ := ((max 0 (5 - (depth : ℤ)) : ℤ) : ℚ) / 5
      let area_weight : ℚ := min (area_norm * 10) 1
      let structure_weight : ℚ := min (perimeter_norm * 2) 1
      let importance : ℚ :=
        0.50 * depth_weight + 0.35 * area_weight + 0.15 * structure_weight
      some ⟨pts, area_norm, perimeter_norm, depth, parent_idx, centroid, tier,
            importance⟩)

/-- Descending-importance comparison used for the final sort; Python
list.sort(key, reverse=True) is a stable descending sort, modelled by
insertion sort under this relation. -/
def impDesc (a b : AnalyzedContour) : Prop :=
  b.importance_score ≤ a.importance_score

instance : DecidableRel impDesc := fun a b =>
  inferInstanceAs (Decidable (b.importance_score ≤ a.importance_score))

instance : IsTotal AnalyzedContour impDesc :=
  ⟨fun a b => le_total b.importance_score a.importance_score⟩

instance : IsTrans AnalyzedContour impDesc :=
  ⟨fun _ _ _ hab hbc => le_trans hbc hab⟩

/-- Full analyze_contours of contour_analyzer.py: analysis loop followed by
the stable sort putting the highest importance first. -/
def analyze_contours (h w : ℕ) (contours : List RawContour)
    (hierarchy : List ℤ) (min_area_fraction : ℚ := 0.0005) :
    List AnalyzedContour :=
  List.insertionSort impDesc (analyzedList h w contours hierarchy min_area_fraction)

end ContourAnalyzer

namespace StepPlanner

open ContourAnalyzer

/-- DrawingStep of step_planner.py: a single planned drawing step with its
batch of contours. -/
structure DrawingStep where
  step_number : ℕ
  phase_name : String
  description : String
  contours : List AnalyzedContour
  is_shading_step : Bool
deriving DecidableEq, Repr

/-- Phase definition record from the PHASES table of step_planner.py. -/
structure Phase where
  name : String
  description : String
  tiers : List String
  min_importance : ℚ
  max_contours : ℕ
deriving DecidableEq, Repr

/-- The five fixed phases of step_planner.py. -/
def _PHASES : List Phase :=
  [⟨"Primary Outline",
    "Draw the main outer shape — the overall silhouette",
    ["outer"], 0.6, 3⟩,
   ⟨"Secondary Shapes",
    "Add large internal structures and secondary outlines",
    ["outer", "inner"], 0.4, 5⟩,
   ⟨"Internal Details",
    "Draw inner features and medium-sized details",
    ["inner"], 0.2, 8⟩,
   ⟨"Fine Details",
    "Add fine lines and smaller shapes",
    ["inner", "detail"], 0.1, 12⟩,
   ⟨"Texture & Finishing",
    "Add textures, tiny details, and finishing touches",
    ["detail"], 0.0, 999⟩]

/-- Inner scan of one phase over the enumerated contour list: skip already
assigned indices, skip tier or importance mismatches, otherwise append the
contour to the batch, mark its index assigned, and stop once the batch
reached the phase maximum (the Python loop breaks after appending).
Returns the collected batch together with the grown assigned set. -/
def phaseScan (ph : Phase) :
    List (ℕ × AnalyzedContour) → List ℕ → ℕ →
    List (ℕ × AnalyzedContour) × List ℕ
  | [], assigned, _ => ([], assigned)
  | ic :: rest, assigned, blen =>
    if ic.1 ∈ assigned then phaseScan ph rest assigned blen
    else if ic.2.tier ∉ ph.tiers then phaseScan ph rest assigned blen
    else if ic.2.importance_score < ph.min_importance then
      phaseScan ph rest assigned blen
    else if ph.max_contours ≤ blen + 1 then ([ic], ic.1 :: assigned)
    else
      let res := phaseScan ph rest (ic.1 :: assigned) (blen + 1)
      (ic :: res.1, res.2)

/-- Outer phase loop of plan_steps: each phase with a non-empty batch emits
one step and advances the step counter; phases with empty batches emit
nothing.  Returns the emitted steps, the final assigned set and the next
step number. -/
def planPhases (indexed : List (ℕ × AnalyzedContour)) :
    List Phase → List ℕ → ℕ → List DrawingStep × List ℕ × ℕ
  | [], assigned, n => ([], assigned, n)
  | ph :: phs, assigned, n =>
    let sc := phaseScan ph indexed assigned 0
    if sc.1.isEmpty then planPhases indexed phs sc.2 n
    else
      let res := planPhases indexed phs sc.2 (n + 1)
      (⟨n, ph.name, ph.description, sc.1.map Prod.snd, false⟩ :: res.1,
       res.2.1, res.2.2)

/-- Full plan_steps of step_planner.py: run the phases starting the step
counter at 1, collect never-assigned contours into one trailing Additional
Details step, optionally append the shading step, then add 1 to every step
number and prepend the synthetic Preparation step numbered 0.  The Python
code also computes a primary centroid local here that it never uses. -/
def plan_steps (contours : List AnalyzedContour)
    (include_shading : Bool := true) : List DrawingStep :=
  let indexed := enumerate 0 contours
  let res := planPhases indexed _PHASES [] 1
  let assigned := res.2.1
  let remaining :=
    (indexed.filter (fun p => p.1 ∉ assigned)).map Prod.snd
  let steps₂ :=
    if remaining.isEmpty then res.1
    else res.1 ++
      [⟨res.2.2, "Additional Details",
        "Complete any remaining small details", remaining, false⟩]
  let n₂ := if remaining.isEmpty then res.2.2 else res.2.2 + 1
  let steps₃ :=
    if include_shading then
      steps₂ ++
        [⟨n₂, "Shading",
          "Add shading — fill in shadow and mid-tone regions", [], true⟩]
    else steps₂
  let grid_step : DrawingStep :=
    ⟨0, "Preparation",
     "Your blank grid — start drawing at the marked point", [], false⟩
  grid_step :: steps₃.map (fun s => { s with step_number := s.step_number + 1 })

/-- Contour batches of the non-shading steps of a plan. -/
def nonShadingBatches (steps : List DrawingStep) : List (List AnalyzedContour) :=
  (steps.filter (fun s => !s.is_shading_step)).map (fun s => s.contours)

end StepPlanner

namespace BlueprintEngine

/-- Named landmark point in normalised coordinates, as consumed by
blueprint_engine.py. -/
structure Landmark where
  name : String
  x : ℚ
  y : ℚ
deriving DecidableEq, Repr

/-- Ideal proportional distances table of blueprint_engine.py. -/
def _IDEAL_PROPORTIONS : List (String × ℚ) :=
  [("shoulder_width", 0.30),
   ("torso_length", 0.32),
   ("upper_arm", 0.17),
   ("forearm", 0.17),
   ("thigh", 0.20),
   ("shin", 0.20),
   ("head_to_shoulder", 0.12)]

/-- Dict lookup into the ideal proportion table; every key used by the
scoring pairs is present, so the default is never reached. -/
def idealFor (key : String) : ℚ :=
  ((_IDEAL_PROPORTIONS.find? (fun kv => kv.1 == key)).map Prod.snd).getD 0

/-- Euclidean distance between two landmarks, from the dist helper. -/
noncomputable def _dist (a b : Landmark) : ℝ :=
  Real.sqrt ((((a.x - b.x : ℚ)) : ℝ) ^ 2 + (((a.y - b.y : ℚ)) : ℝ) ^ 2)

/-- First landmark of a given name, from the lm_by_name helper. -/
def _lm_by_name (landmarks : List Landmark) (name : String) : Option Landmark :=
  landmarks.find? (fun lm => lm.name == name)

/-- The seven anatomical point pairs scored by score_proportions:
(first landmark name, second landmark name, ideal table key). -/
def pairs : List (String × String × String) :=
  [("left_shoulder", "right_shoulder", "shoulder_width"),
   ("left_shoulder", "left_hip", "torso_length"),
   ("left_shoulder", "left_elbow", "upper_arm"),
   ("left_elbow", "left_wrist", "forearm"),
   ("left_hip", "left_knee", "thigh"),
   ("left_knee", "left_ankle", "shin"),
   ("nose", "left_shoulder", "head_to_shoulder")]

/-- Per-pair error of the scoring loop: none when either landmark name is
absent (the pair is skipped), otherwise the relative error against the
ideal distance, clamped to at most 1. -/
noncomputable def pairError (landmarks : List Landmark) (p : String × String × String) :
    Option ℝ :=
  match _lm_by_name landmarks p.1, _lm_by_name landmarks p.2.1 with
  | some a, some b =>
    some (min (|_dist a b - ((idealFor p.2.2 : ℚ) : ℝ)| /
               max ((idealFor p.2.2 : ℚ) : ℝ) (1 / 1000000)) 1)
  | _, _ => none

/-- Error list accumulated over the seven pairs, in pair order. -/
noncomputable def errorsOf (landmarks : List Landmark) : List ℝ :=
  pairs.filterMap (pairError landmarks)

/-- Python round(x, 2): two decimal digits, half rounded up in this model. -/
noncomputable def round2 (x : ℝ) : ℝ := ((⌊x * 100 + 1 / 2⌋ : ℤ) : ℝ) / 100

/-- Proportion accuracy of score_proportions: the neutral default 50.0 when
no pair produced an error, otherwise (1 - mean error) * 100 rounded to two
decimals. -/
noncomputable def _score_proportions (landmarks : List Landmark) : ℝ :=
  let errors := errorsOf landmarks
  if errors.isEmpty then 50
  else round2 ((1 - errors.sum / (errors.length : ℝ)) * 100)

end BlueprintEngine

namespace CanvasRenderer

/-- Truncation toward zero, the behaviour of Python int() and of numpy
astype(int32) on the non-negative values arising here. -/
def ratTrunc (q : ℚ) : ℤ := if 0 ≤ q then ⌊q⌋ else -⌊-q⌋

/-- Render footprint of normalised_to_canvas: the drawing area is
(x_start, y_start, x_end, y_end); the image aspect ratio is fitted inside
it, width-filling when the image is wider than the area and height-filling
otherwise. -/
def renderSize (draw_area : ℤ × ℤ × ℤ × ℤ) (image_aspect : ℚ) : ℤ × ℤ :=
  let area_w := draw_area.2.2.1 - draw_area.1
  let area_h := draw_area.2.2.2 - draw_area.2.1
  let area_aspect : ℚ := (area_w : ℚ) / (area_h : ℚ)
  if area_aspect < image_aspect then
    (area_w, ratTrunc ((area_w : ℚ) / image_aspect))
  else
    (ratTrunc ((area_h : ℚ) * image_aspect), area_h)

/-- Centering offset of normalised_to_canvas: the top-left corner of the
render footprint, the unused space split in half with Python floor
division. -/
def renderOffset (draw_area : ℤ × ℤ × ℤ × ℤ) (image_aspect : ℚ) : ℤ × ℤ :=
  let area_w := draw_area.2.2.1 - draw_area.1
  let area_h := draw_area.2.2.2 - draw_area.2.1
  let rs := renderSize draw_area image_aspect
  (draw_area.1 + (area_w - rs.1).fdiv 2,
   draw_area.2.1 + (area_h - rs.2).fdiv 2)

/-- Coordinate transform of normalised_to_canvas applied to one normalised
point: scale by the render footprint, translate by the centering offset,
and truncate to integer pixel coordinates. -/
def _normalised_to_canvas (p : ℚ × ℚ) (draw_area : ℤ × ℤ × ℤ × ℤ)
    (image_aspect : ℚ) : ℤ × ℤ :=
  let rs := renderSize draw_area image_aspect
  let off := renderOffset draw_area image_aspect
  (ratTrunc (p.1 * (rs.1 : ℚ) + (off.1 : ℚ)),
   ratTrunc (p.2 * (rs.2 : ℚ) + (off.2 : ℚ)))

/-- Marker condition of render_step: the Start Here marker is drawn exactly
when a start centroid was passed and the step number is 0 or 1. -/
def marker_drawn (step_number : ℕ) (start_centroid : Option (ℚ × ℚ)) : Bool :=
  start_centroid.isSome && decide (step_number ≤ 1)

end CanvasRenderer

namespace StepGenerator

open ContourAnalyzer

/-- Primary centroid of generate_drawing_steps, passed to every render call
as the start centroid: the first ranked contour centroid, or the canvas
center when no contours were extracted. -/
def primaryCentroid (contours : List AnalyzedContour) : ℚ × ℚ :=
  match contours with
  | [] => (0.5, 0.5)
  | c :: _ => c.centroid

end StepGenerator

namespace ContourAnalyzer

/-- Every contour surviving the analysis loop stores a tier equal to the
classifier applied to its stored depth, and an importance score equal to
the weighted combination of its stored normalised measures. -/
theorem analyzedList_mem_fields (hh ww : ℕ) (raw : List RawContour)
    (hier : List ℤ) (f : ℚ) :
    ∀ c ∈ analyzedList hh ww raw hier f,
      c.tier = _classify_tier c.depth ∧
      c.importance_score =
        0.50 * (((max 0 (5 - (c.depth : ℤ)) : ℤ) : ℚ) / 5) +
        0.35 * min (c.area * 10) 1 + 0.15 * min (c.perimeter * 2) 1 := by
  intro c hc
  simp only [analyzedList, List.mem_filterMap] at hc
  obtain ⟨ic, _, heq⟩ := hc
  by_cases hlt : ic.2.area_px < (hh : ℚ) * (ww : ℚ) * f
  · simp only [hlt, if_true] at heq
    exact absurd heq (by simp)
  · simp only [hlt, if_false, Option.some.injEq] at heq
    subst heq
    exact ⟨rfl, rfl⟩

/-- Filtering one importance class commutes with ordered insertion: the
inserted element lands in front of the class members already present. -/
theorem filter_orderedInsert_imp (v : ℚ) (a : AnalyzedContour) :
    ∀ l : List AnalyzedContour,
      (List.orderedInsert impDesc a l).filter
          (fun c => decide (c.importance_score = v)) =
        if a.importance_score = v then
          a :: l.filter (fun c => decide (c.importance_score = v))
        else l.filter (fun c => decide (c.importance_score = v))
  | [] => by
    simp only [List.orderedInsert, List.filter]
    split_ifs with h <;> simp [h]
  | b :: t => by
    rw [List.orderedInsert]
    by_cases hab : impDesc a b
    · rw [if_pos hab]
      by_cases hav : a.importance_score = v <;>
        by_cases hbv : b.importance_score = v <;>
          simp [List.filter_cons, hav, hbv]
    · rw [if_neg hab]
      have hlt : a.importance_score < b.importance_score :=
        lt_of_not_le hab
      by_cases hbv : b.importance_score = v
      · have hav : ¬ a.importance_score = v := fun h =>
          absurd (h.trans hbv.symm) (ne_of_lt hlt)
        simp [List.filter_cons, hbv, hav, filter_orderedInsert_imp v a t]
      · by_cases hav : a.importance_score = v <;>
          simp [List.filter_cons, hbv, hav, filter_orderedInsert_imp v a t]

/-- Insertion sort under the descending-importance relation is stable:
each importance class keeps its original relative order. -/
theorem filter_insertionSort_imp (v : ℚ) :
    ∀ l : List AnalyzedContour,
      (List.insertionSort impDesc l).filter
          (fun c => decide (c.importance_score = v)) =
        l.filter (fun c => decide (c.importance_score = v))
  | [] => rfl
  | a :: t => by
    rw [List.insertionSort, filter_orderedInsert_imp,
        filter_insertionSort_imp v t, List.filter_cons]
    split_ifs with h h' h' <;> first | rfl | simp_all

/-- C6: for every surviving contour, the importance score equals
0.50 times the depth weight max(0, 5 - depth)/5 plus 0.35 times the area
weight min(normalized_area x 10, 1) plus 0.15 times the structure weight
min(normalized_perimeter x 2, 1). -/
theorem importance_score_formula (hh ww : ℕ) (raw : List RawContour)
    (hier : List ℤ) (f : ℚ) :
    List.Forall
      (fun c =>
        c.importance_score =
          0.50 * (((max 0 (5 - (c.depth : ℤ)) : ℤ) : ℚ) / 5) +
          0.35 * min (c.area * 10) 1 + 0.15 * min (c.perimeter * 2) 1)
      (analyze_contours hh ww raw hier f) := by
  rw [List.forall_iff_forall_mem]
  intro c hc
  have hmem : c ∈ analyzedList hh ww raw hier f :=
    (List.perm_insertionSort impDesc _).subset hc
  exact (analyzedList_mem_fields hh ww raw hier f c hmem).2

/-- C7: the sequence returned by analyze_contours is sorted descending by
importance score, and the sort is stable: every importance class appears
in the same relative order as in the pre-sort analysis sequence. -/
theorem analyze_contours_sorted_stable (hh ww : ℕ) (raw : List RawContour)
    (hier : List ℤ) (f : ℚ) :
    List.Sorted impDesc (analyze_contours hh ww raw hier f) ∧
      ∀ v : ℚ,
        (analyze_contours hh ww raw hier f).filter
            (fun c => decide (c.importance_score = v)) =
          (analyzedList hh ww raw hier f).filter
            (fun c => decide (c.importance_score = v)) :=
  ⟨List.sorted_insertionSort impDesc _, fun v => filter_insertionSort_imp v _⟩

/-- C8: the tier label is a pure function of hierarchy depth: depth 0 is
outer, depth 1 or 2 is inner, depth at least 3 is detail, and every
extracted shape carries the tier computed from its depth. -/
theorem tier_from_depth (hh ww : ℕ) (raw : List RawContour) (hier : List ℤ)
    (f : ℚ) :
    _classify_tier 0 = "outer" ∧
      (∀ d : ℕ, 1 ≤ d → d ≤ 2 → _classify_tier d = "inner") ∧
      (∀ d : ℕ, 3 ≤ d → _classify_tier d = "detail") ∧
      List.Forall (fun c => c.tier = _classify_tier c.depth)
        (analyze_contours hh ww raw hier f) := by
  refine ⟨rfl, ?_, ?_, ?_⟩
  · intro d h1 h2
    unfold _classify_tier
    rw [if_neg (by omega), if_pos h2]
  · intro d h3
    unfold _classify_tier
    rw [if_neg (by omega), if_neg (by omega)]
  · rw [List.forall_iff_forall_mem]
    intro c hc
    have hmem : c ∈ analyzedList hh ww raw hier f :=
      (List.perm_insertionSort impDesc _).subset hc
    exact (analyzedList_mem_fields hh ww raw hier f c hmem).1

/-- Witness for C8 at concrete depths. -/
theorem tier_from_depth_witness :
    ((1 : ℕ) ≤ 2 ∧ (2 : ℕ) ≤ 2 ∧ _classify_tier 2 = "inner") ∧
      ((3 : ℕ) ≤ 5 ∧ _classify_tier 5 = "detail") :=
  ⟨⟨by decide, by decide,
    (tier_from_depth 10 10 [] [] 0).2.1 2 (by decide) (by decide)⟩,
   ⟨by decide, (tier_from_depth 10 10 [] [] 0).2.2.1 5 (by decide)⟩⟩

end ContourAnalyzer

/-- C10: the default band tables of shading_mapper and tone_mapper differ,
and intensity 70 is deep shadow (mask value 0) for generate_tone_mask while
map_shading thresholds it into its mid_tone band. -/
theorem default_band_tables_differ :
    ShadingMapper.DEFAULT_BANDS ≠
        ToneMapper.DEFAULT_BANDS.map (fun b => (b.1, b.2.1, b.2.2.1)) ∧
      ToneMapper.bandValue ToneMapper.DEFAULT_BANDS 70 = 0 ∧
      ShadingMapper.bandsContaining ShadingMapper.DEFAULT_BANDS 70 =
        ["mid_tone"] := by
  decide

namespace StepPlanner

/-- C1 fails on the code: with no contours and shading requested, the plan
holds two steps whose numbers are 0 and 2 — the phase counter starts at 1
and every step is renumbered up by one before step 0 is prepended, so the
number 1 is skipped and the k-th step does not carry step number k. -/
theorem plan_steps_step_numbers_gap :
    (plan_steps [] true).map (fun s => s.step_number) = [0, 2] := rfl

/-- C3: plan_steps always places the synthetic Preparation step first, with
step number 0 and an empty batch, and the start-marker location passed to
the renderer is the first ranked contour centroid, or the canvas center
(0.5, 0.5) for an empty input. -/
theorem plan_steps_prepends_preparation (cs : List ContourAnalyzer.AnalyzedContour)
    (inc : Bool) :
    (plan_steps cs inc).head? =
        some ⟨0, "Preparation",
          "Your blank grid — start drawing at the marked point", [], false⟩ ∧
      StepGenerator.primaryCentroid [] = (0.5, 0.5) ∧
      (∀ (c : ContourAnalyzer.AnalyzedContour)
        (rest : List ContourAnalyzer.AnalyzedContour),
        StepGenerator.primaryCentroid (c :: rest) = c.centroid) ∧
      CanvasRenderer.marker_drawn 0
        (some (StepGenerator.primaryCentroid cs)) = true :=
  ⟨rfl, rfl, fun _ _ => rfl, rfl⟩

end StepPlanner

namespace ToneMapper

/-- Every band value the default table can assign is 0, 1 or 2. -/
theorem bandValue_cases (v : ℕ) :
    bandValue DEFAULT_BANDS v = 0 ∨ bandValue DEFAULT_BANDS v = 1 ∨
      bandValue DEFAULT_BANDS v = 2 := by
  unfold bandValue DEFAULT_BANDS
  simp only [List.foldl_cons, List.foldl_nil]
  split_ifs <;> simp

/-- Counting the three mask values partitions a mask containing no other
value. -/
theorem count_partition :
    ∀ l : List ℕ, (∀ m ∈ l, m = 0 ∨ m = 1 ∨ m = 2) →
      l.count 0 + l.count 1 + l.count 2 = l.length
  | [], _ => rfl
  | a :: t, h => by
    have ht := count_partition t (fun m hm => h m (List.mem_cons_of_mem a hm))
    rcases h a (List.mem_cons_self a t) with ha | ha | ha <;>
      subst ha <;> simp [List.count_cons, ht] <;> omega

/-- Rounding to one decimal moves a rational by at most 1/20. -/
theorem round1_error (x : ℚ) : |round1 x - x| ≤ 1 / 20 := by
  unfold round1
  rw [abs_le]
  have h1 : (⌊x * 10 + 1 / 2⌋ : ℚ) ≤ x * 10 + 1 / 2 := Int.floor_le _
  have h2 : x * 10 + 1 / 2 < (⌊x * 10 + 1 / 2⌋ : ℚ) + 1 := Int.lt_floor_add_one _
  constructor <;> [linarith; linarith]

/-- C5: the default tone mask assigns every pixel exactly one band value in
0, 1, 2 — exactly one default band matches every 8-bit intensity, larger
values fall back to highlight — and on a mask holding only those values the
three tone_summary percentages differ from 100 by at most the rounding
slack 3/20. -/
theorem tone_mask_total_summary (smoothed : List ℕ) (mask : List ℕ) :
    List.Forall (fun p => p = 0 ∨ p = 1 ∨ p = 2)
        (generate_tone_mask smoothed DEFAULT_BANDS) ∧
      (∀ v : ℕ, v ≤ 255 →
        (DEFAULT_BANDS.filter
            (fun b => decide (b.2.1 ≤ v ∧ v ≤ b.2.2.1))).length = 1) ∧
      (∀ v : ℕ, 255 < v → bandValue DEFAULT_BANDS v = 2) ∧
      (0 < mask.length → (∀ m ∈ mask, m = 0 ∨ m = 1 ∨ m = 2) →
        |(tone_summary mask).1 + (tone_summary mask).2.1 +
            (tone_summary mask).2.2 - 100| ≤ 3 / 20) := by
  refine ⟨?_, ?_, ?_, ?_⟩
  · rw [List.forall_iff_forall_mem]
    intro p hp
    obtain ⟨v, _, hv⟩ := List.mem_map.1 hp
    exact hv ▸ bandValue_cases v
  · intro v hv
    unfold DEFAULT_BANDS
    simp only [List.filter_cons, List.filter_nil, decide_eq_true_eq]
    split_ifs <;> simp_all <;> omega
  · intro v hv
    unfold bandValue DEFAULT_BANDS
    simp only [List.foldl_cons, List.foldl_nil]
    rw [if_neg (by omega), if_neg (by omega), if_neg (by omega)]
  · intro hlen hmem
    have hcount := count_partition mask hmem
    have hn : (0 : ℚ) < (mask.length : ℚ) := by exact_mod_cast hlen
    have hcast : ((mask.count 0 : ℚ) + (mask.count 1 : ℚ) +
        (mask.count 2 : ℚ)) = (mask.length : ℚ) := by exact_mod_cast hcount
    have hsum :
        (mask.count 0 : ℚ) / (mask.length : ℚ) * 100 +
          (mask.count 1 : ℚ) / (mask.length : ℚ) * 100 +
          (mask.count 2 : ℚ) / (mask.length : ℚ) * 100 = 100 := by
      field_simp
      linarith
    have e0 := round1_error ((mask.count 0 : ℚ) / (mask.length : ℚ) * 100)
    have e1 := round1_error ((mask.count 1 : ℚ) / (mask.length : ℚ) * 100)
    have e2 := round1_error ((mask.count 2 : ℚ) / (mask.length : ℚ) * 100)
    rw [abs_le] at e0 e1 e2 ⊢
    unfold tone_summary
    constructor <;> simp only [] <;> [linarith; linarith]

/-- Witness for C5 at a concrete intensity and a concrete mask. -/
theorem tone_mask_total_summary_witness :
    ((70 : ℕ) ≤ 255 ∧
        (DEFAULT_BANDS.filter
            (fun b => decide (b.2.1 ≤ 70 ∧ 70 ≤ b.2.2.1))).length = 1) ∧
      ((255 : ℕ) < 300 ∧ bandValue DEFAULT_BANDS 300 = 2) ∧
      (0 < ([0, 1, 2] : List ℕ).length ∧
        (∀ m ∈ ([0, 1, 2] : List ℕ), m = 0 ∨ m = 1 ∨ m = 2) ∧
        |(tone_summary [0, 1, 2]).1 + (tone_summary [0, 1, 2]).2.1 +
            (tone_summary [0, 1, 2]).2.2 - 100| ≤ 3 / 20) :=
  ⟨⟨by decide, (tone_mask_total_summary [] []).2.1 70 (by decide)⟩,
   ⟨by decide, (tone_mask_total_summary [] []).2.2.1 300 (by decide)⟩,
   ⟨by decide, by decide,
    (tone_mask_total_summary [] [0, 1, 2]).2.2.2 (by decide) (by decide)⟩⟩

end ToneMapper

namespace BlueprintEngine

/-- Length of a filterMap equals the number of elements the function does
not reject. -/
theorem length_filterMap_eq_length_filter (f : α → Option β) :
    ∀ l : List α,
      (l.filterMap f).length = (l.filter (fun a => (f a).isSome)).length
  | [] => rfl
  | a :: t => by
    cases h : f a <;>
      simp [List.filterMap_cons, List.filter_cons, h,
            length_filterMap_eq_length_filter f t]

/-- A pair produces an error entry exactly when both of its landmark names
resolve. -/
theorem pairError_isSome (lms : List Landmark) (p : String × String × String) :
    (pairError lms p).isSome =
      ((_lm_by_name lms p.1).isSome && (_lm_by_name lms p.2.1).isSome) := by
  unfold pairError
  cases h1 : _lm_by_name lms p.1 <;> cases h2 : _lm_by_name lms p.2.1 <;> rfl

/-- C4: proportion scoring records one error per pair whose two landmark
names are both present (absent pairs contribute neither score nor
penalty), returns exactly 50 when every pair is skipped, otherwise
returns (1 - mean error) x 100 rounded to 2 decimals, with each recorded
error clamped to [0, 1]. -/
theorem score_proportions_spec (lms : List Landmark) :
    (errorsOf lms).length =
        (pairs.filter (fun p => (_lm_by_name lms p.1).isSome &&
          (_lm_by_name lms p.2.1).isSome)).length ∧
      ((∀ p ∈ pairs, _lm_by_name lms p.1 = none ∨ _lm_by_name lms p.2.1 = none) →
        _score_proportions lms = 50) ∧
      (errorsOf lms ≠ [] →
        _score_proportions lms =
          round2 ((1 - (errorsOf lms).sum / ((errorsOf lms).length : ℝ)) * 100)) ∧
      List.Forall (fun e => 0 ≤ e ∧ e ≤ 1) (errorsOf lms) := by
  refine ⟨?_, ?_, ?_, ?_⟩
  · rw [errorsOf, length_filterMap_eq_length_filter]
    congr 1
    exact List.filter_congr (fun p _ => pairError_isSome lms p)
  · intro habs
    have he : errorsOf lms = [] := by
      rw [errorsOf, List.filterMap_eq_nil_iff]
      intro p hp
      unfold pairError
      rcases habs p hp with h | h <;> rw [h] <;>
        first
          | rfl
          | (cases _lm_by_name lms p.1 <;> rfl)
    rw [_score_proportions, he]
    rfl
  · intro hne
    rw [_score_proportions, if_neg]
    simpa [List.isEmpty_iff] using hne
  · rw [List.forall_iff_forall_mem]
    intro e he
    obtain ⟨p, _, hp⟩ := List.mem_filterMap.1 he
    unfold pairError at hp
    rcases h1 : _lm_by_name lms p.1 with _ | a <;> rw [h1] at hp
    · cases hp
    rcases h2 : _lm_by_name lms p.2.1 with _ | b <;> rw [h2] at hp
    · cases hp
    have hmax : (0 : ℝ) < max ((idealFor p.2.2 : ℚ) : ℝ) (1 / 1000000) :=
      lt_max_of_lt_right (by norm_num)
    have hnn : (0 : ℝ) ≤
        |_dist a b - ((idealFor p.2.2 : ℚ) : ℝ)| /
          max ((idealFor p.2.2 : ℚ) : ℝ) (1 / 1000000) :=
      div_nonneg (abs_nonneg _) (le_of_lt hmax)
    cases hp
    exact ⟨le_min hnn zero_le_one, min_le_right _ _⟩

/-- Witness for C4: an empty landmark list skips all pairs and yields the
neutral 50; a list holding nose and left_shoulder resolves one pair and
goes through the rounded mean-error formula. -/
theorem score_proportions_spec_witness :
    (∀ p ∈ pairs, _lm_by_name [] p.1 = none ∨ _lm_by_name [] p.2.1 = none) ∧
      _score_proportions [] = 50 ∧
      errorsOf [⟨"nose", 0, 0⟩, ⟨"left_shoulder", 0, 1⟩] ≠ [] ∧
      _score_proportions [⟨"nose", 0, 0⟩, ⟨"left_shoulder", 0, 1⟩] =
        round2 ((1 -
            (errorsOf [⟨"nose", 0, 0⟩, ⟨"left_shoulder", 0, 1⟩]).sum /
              ((errorsOf [⟨"nose", 0, 0⟩, ⟨"left_shoulder", 0, 1⟩]).length : ℝ))
          * 100) :=
  have habs : ∀ p ∈ pairs, _lm_by_name [] p.1 = none ∨
      _lm_by_name [] p.2.1 = none := by
    intro p _
    exact Or.inl rfl
  have hlen : (errorsOf [⟨"nose", 0, 0⟩, ⟨"left_shoulder", 0, 1⟩]).length = 1 :=
    rfl
  have hne : errorsOf [⟨"nose", 0, 0⟩, ⟨"left_shoulder", 0, 1⟩] ≠ [] := by
    intro h
    rw [h] at hlen
    cases hlen
  ⟨habs, (score_proportions_spec []).2.1 habs, hne,
   (score_proportions_spec _).2.2.1 hne⟩

end BlueprintEngine

namespace CanvasRenderer

/-- An integer lower bound below a rational survives truncation toward
zero. -/
theorem le_ratTrunc {a : ℤ} {q : ℚ} (h : (a : ℚ) ≤ q) : a ≤ ratTrunc q := by
  unfold ratTrunc
  split_ifs with h0
  · exact Int.le_floor.mpr h
  · have h2 : ⌊-q⌋ ≤ ⌊((-a : ℤ) : ℚ)⌋ := Int.floor_mono (by push_cast; linarith)
    rw [Int.floor_intCast] at h2
    omega

/-- An integer upper bound above a rational survives truncation toward
zero. -/
theorem ratTrunc_le {q : ℚ} {b : ℤ} (h : q ≤ (b : ℚ)) : ratTrunc q ≤ b := by
  unfold ratTrunc
  split_ifs with h0
  · have h2 : ⌊q⌋ ≤ ⌊((b : ℤ) : ℚ)⌋ := Int.floor_mono h
    rwa [Int.floor_intCast] at h2
  · have h2 : (-b : ℤ) ≤ ⌊-q⌋ := Int.le_floor.mpr (by push_cast; linarith)
    omega

/-- Scaling a unit-interval coordinate by a footprint no wider than the
available span and centering it keeps the truncated pixel coordinate
inside the span. -/
theorem trunc_scale_bounds (t : ℚ) (s e r : ℤ)
    (ht0 : 0 ≤ t) (ht1 : t ≤ 1) (hr0 : 0 ≤ r) (hre : r ≤ e - s) :
    s ≤ ratTrunc (t * (r : ℚ) + ((s + (e - s - r).fdiv 2 : ℤ) : ℚ)) ∧
      ratTrunc (t * (r : ℚ) + ((s + (e - s - r).fdiv 2 : ℤ) : ℚ)) ≤ e := by
  have hd0 : 0 ≤ e - s - r := by omega
  have hf0 : 0 ≤ (e - s - r).fdiv 2 := Int.fdiv_nonneg hd0 (by norm_num)
  have hfle : (e - s - r).fdiv 2 ≤ e - s - r := by
    rw [Int.fdiv_eq_ediv _ (by norm_num)]
    exact Int.ediv_le_self 2 hd0
  have hrq : (0 : ℚ) ≤ (r : ℚ) := by exact_mod_cast hr0
  have hf0q : (0 : ℚ) ≤ ((e - s - r).fdiv 2 : ℚ) := by exact_mod_cast hf0
  have hfleq : ((e - s - r).fdiv 2 : ℚ) ≤ ((e : ℚ) - s) - r := by
    have := hfle
    push_cast
    exact_mod_cast this
  constructor
  · apply le_ratTrunc
    have htr : 0 ≤ t * (r : ℚ) := mul_nonneg ht0 hrq
    push_cast
    linarith
  · apply ratTrunc_le
    have htr : t * (r : ℚ) ≤ (r : ℚ) := by
      calc t * (r : ℚ) ≤ 1 * (r : ℚ) := mul_le_mul_of_nonneg_right ht1 hrq
        _ = (r : ℚ) := one_mul _
    push_cast
    linarith

/-- The fitted render footprint is non-negative on both axes and never
exceeds the drawing area span. -/
theorem renderSize_bounds (x_s y_s x_e y_e : ℤ) (ia : ℚ)
    (hx : x_s < x_e) (hy : y_s < y_e) (hia : 0 < ia) :
    0 ≤ (renderSize (x_s, y_s, x_e, y_e) ia).1 ∧
      (renderSize (x_s, y_s, x_e, y_e) ia).1 ≤ x_e - x_s ∧
      0 ≤ (renderSize (x_s, y_s, x_e, y_e) ia).2 ∧
      (renderSize (x_s, y_s, x_e, y_e) ia).2 ≤ y_e - y_s := by
  have hw : (0 : ℚ) < ((x_e - x_s : ℤ) : ℚ) := by
    exact_mod_cast sub_pos.mpr hx
  have hh : (0 : ℚ) < ((y_e - y_s : ℤ) : ℚ) := by
    exact_mod_cast sub_pos.mpr hy
  simp only [renderSize]
  split_ifs with hcmp
  · refine ⟨by omega, le_refl _, ?_, ?_⟩
    · apply le_ratTrunc
      have hia2 := le_of_lt hia
      push_cast
      push_cast at hw
      exact div_nonneg (by linarith) hia2
    · apply ratTrunc_le
      have harg : ((x_e - x_s : ℤ) : ℚ) / ia < ((y_e - y_s : ℤ) : ℚ) := by
        rw [div_lt_iff hia]
        have := (div_lt_iff hh).mp hcmp
        linarith
      push_cast
      push_cast at harg
      linarith
  · have hle : ia ≤ ((x_e - x_s : ℤ) : ℚ) / ((y_e - y_s : ℤ) : ℚ) :=
      le_of_not_lt hcmp
    refine ⟨?_, ?_, by omega, le_refl _⟩
    · apply le_ratTrunc
      have hia2 := le_of_lt hia
      push_cast
      push_cast at hh
      exact mul_nonneg (by linarith) hia2
    · apply ratTrunc_le
      have harg : ((y_e - y_s : ℤ) : ℚ) * ia ≤ ((x_e - x_s : ℤ) : ℚ) := by
        have := (le_div_iff hh).mp hle
        linarith
      push_cast
      push_cast at harg
      linarith

/-- C9: for unit-interval points, a proper drawing area and a positive
image aspect, the transformed pixel coordinates stay inside the drawing
area rectangle and the two centering offsets are non-negative. -/
theorem normalised_to_canvas_in_draw_area (px py : ℚ) (x_s y_s x_e y_e : ℤ)
    (ia : ℚ) (hpx0 : 0 ≤ px) (hpx1 : px ≤ 1) (hpy0 : 0 ≤ py) (hpy1 : py ≤ 1)
    (hx : x_s < x_e) (hy : y_s < y_e) (hia : 0 < ia) :
    x_s ≤ (_normalised_to_canvas (px, py) (x_s, y_s, x_e, y_e) ia).1 ∧
      (_normalised_to_canvas (px, py) (x_s, y_s, x_e, y_e) ia).1 ≤ x_e ∧
      y_s ≤ (_normalised_to_canvas (px, py) (x_s, y_s, x_e, y_e) ia).2 ∧
      (_normalised_to_canvas (px, py) (x_s, y_s, x_e, y_e) ia).2 ≤ y_e ∧
      0 ≤ ((x_e - x_s) - (renderSize (x_s, y_s, x_e, y_e) ia).1).fdiv 2 ∧
      0 ≤ ((y_e - y_s) - (renderSize (x_s, y_s, x_e, y_e) ia).2).fdiv 2 := by
  obtain ⟨hw0, hw1, hh0, hh1⟩ := renderSize_bounds x_s y_s x_e y_e ia hx hy hia
  have hbx := trunc_scale_bounds px x_s x_e
    (renderSize (x_s, y_s, x_e, y_e) ia).1 hpx0 hpx1 hw0 hw1
  have hby := trunc_scale_bounds py y_s y_e
    (renderSize (x_s, y_s, x_e, y_e) ia).2 hpy0 hpy1 hh0 hh1
  exact ⟨hbx.1, hbx.2, hby.1, hby.2,
    Int.fdiv_nonneg (by omega) (by norm_num),
    Int.fdiv_nonneg (by omega) (by norm_num)⟩

/-- Witness for C9 at a concrete point, drawing area and aspect ratio. -/
theorem normalised_to_canvas_in_draw_area_witness :
    ((0 : ℚ) ≤ 0 ∧ (0 : ℚ) ≤ 1 ∧ (0 : ℚ) ≤ 1 ∧ (1 : ℚ) ≤ 1 ∧
        (0 : ℤ) < 100 ∧ (0 : ℤ) < 50 ∧ (0 : ℚ) < 1) ∧
      (0 ≤ (_normalised_to_canvas (0, 1) (0, 0, 100, 50) 1).1 ∧
        (_normalised_to_canvas (0, 1) (0, 0, 100, 50) 1).1 ≤ 100 ∧
        0 ≤ (_normalised_to_canvas (0, 1) (0, 0, 100, 50) 1).2 ∧
        (_normalised_to_canvas (0, 1) (0, 0, 100, 50) 1).2 ≤ 50 ∧
        0 ≤ ((100 - 0) - (renderSize (0, 0, 100, 50) 1).1).fdiv 2 ∧
        0 ≤ ((50 - 0) - (renderSize (0, 0, 100, 50) 1).2).fdiv 2) :=
  ⟨⟨le_refl 0, zero_le_one, zero_le_one, le_refl 1, by decide, by decide,
    zero_lt_one⟩,
   normalised_to_canvas_in_draw_area 0 1 0 0 100 50 1 (le_refl 0) zero_le_one
     zero_le_one (le_refl 1) (by decide) (by decide) zero_lt_one⟩

end CanvasRenderer

namespace ContourAnalyzer

/-- Enumerating and dropping the indices gives back the list. -/
theorem enumerate_map_snd : ∀ (n : ℕ) (l : List α),
    (enumerate n l).map Prod.snd = l
  | _, [] => rfl
  | n, a :: t => by simp [enumerate, enumerate_map_snd (n + 1) t]

/-- Every index produced by enumerate n is at least n. -/
theorem enumerate_fst_ge : ∀ (n : ℕ) (l : List α) (p : ℕ × α),
    p ∈ enumerate n l → n ≤ p.1
  | n, a :: t, p, hp => by
    rcases List.mem_cons.1 hp with h | h
    · subst h; exact le_refl n
    · exact Nat.le_of_succ_le (enumerate_fst_ge (n + 1) t p h)

/-- The indices produced by enumerate are pairwise distinct. -/
theorem enumerate_fst_nodup : ∀ (n : ℕ) (l : List α),
    ((enumerate n l).map Prod.fst).Nodup
  | _, [] => List.nodup_nil
  | n, a :: t => by
    simp only [enumerate, List.map_cons, List.nodup_cons]
    refine ⟨?_, enumerate_fst_nodup (n + 1) t⟩
    intro hmem
    obtain ⟨p, hp, hfst⟩ := List.mem_map.1 hmem
    have := enumerate_fst_ge (n + 1) t p hp
    omega

end ContourAnalyzer

namespace StepPlanner

/-- Filtering on exclusion from the assigned set drops a pair whose index
is assigned. -/
theorem filter_skip {l : List (ℕ × ContourAnalyzer.AnalyzedContour)}
    {asg : List ℕ} {p : ℕ × ContourAnalyzer.AnalyzedContour}
    (h : p.1 ∈ asg) :
    (p :: l).filter (fun q => decide (q.1 ∉ asg)) =
      l.filter (fun q => decide (q.1 ∉ asg)) := by
  simp [List.filter_cons, h]

/-- Filtering on exclusion from the assigned set keeps a pair whose index
is unassigned. -/
theorem filter_keep {l : List (ℕ × ContourAnalyzer.AnalyzedContour)}
    {asg : List ℕ} {p : ℕ × ContourAnalyzer.AnalyzedContour}
    (h : p.1 ∉ asg) :
    (p :: l).filter (fun q => decide (q.1 ∉ asg)) =
      p :: l.filter (fun q => decide (q.1 ∉ asg)) := by
  simp [List.filter_cons, h]

/-- An index absent from a pair list does not affect its exclusion
filter. -/
theorem filter_notMem_cons {i : ℕ} {asg : List ℕ}
    {l : List (ℕ × ContourAnalyzer.AnalyzedContour)}
    (hi : i ∉ l.map Prod.fst) :
    l.filter (fun q => decide (q.1 ∉ i :: asg)) =
      l.filter (fun q => decide (q.1 ∉ asg)) := by
  apply List.filter_congr
  intro a ha
  have hne : a.1 ≠ i := fun h => hi (h ▸ List.mem_map_of_mem Prod.fst ha)
  rw [decide_eq_decide]
  simp [List.mem_cons, hne]

/-- The assigned set only grows during a phase scan. -/
theorem phaseScan_assigned_mono (ph : Phase) :
    ∀ (l : List (ℕ × ContourAnalyzer.AnalyzedContour)) (assigned : List ℕ)
      (blen : ℕ), assigned ⊆ (phaseScan ph l assigned blen).2
  | [], _, _ => fun _ h => h
  | ic :: rest, assigned, blen => by
    by_cases h1 : ic.1 ∈ assigned
    · rw [phaseScan, if_pos h1]
      exact phaseScan_assigned_mono ph rest assigned blen
    · by_cases h2 : ic.2.tier ∉ ph.tiers
      · rw [phaseScan, if_neg h1, if_pos h2]
        exact phaseScan_assigned_mono ph rest assigned blen
      · by_cases h3 : ic.2.importance_score < ph.min_importance
        · rw [phaseScan, if_neg h1, if_neg h2, if_pos h3]
          exact phaseScan_assigned_mono ph rest assigned blen
        · by_cases h4 : ph.max_contours ≤ blen + 1
          · rw [phaseScan, if_neg h1, if_neg h2, if_neg h3, if_pos h4]
            exact fun x hx => List.mem_cons_of_mem _ hx
          · rw [phaseScan, if_neg h1, if_neg h2, if_neg h3, if_neg h4]
            exact fun x hx =>
              phaseScan_assigned_mono ph rest (ic.1 :: assigned) (blen + 1)
                (List.mem_cons_of_mem _ hx)

/-- Indices assigned after a phase scan were either picked into the batch
or were assigned before. -/
theorem phaseScan_assigned_mem (ph : Phase) :
    ∀ (l : List (ℕ × ContourAnalyzer.AnalyzedContour)) (assigned : List ℕ)
      (blen : ℕ) (j : ℕ), j ∈ (phaseScan ph l assigned blen).2 →
      j ∈ (phaseScan ph l assigned blen).1.map Prod.fst ∨ j ∈ assigned
  | [], _, _, _ => fun h => Or.inr h
  | ic :: rest, assigned, blen, j => by
    by_cases h1 : ic.1 ∈ assigned
    · rw [phaseScan, if_pos h1]
      exact phaseScan_assigned_mem ph rest assigned blen j
    · by_cases h2 : ic.2.tier ∉ ph.tiers
      · rw [phaseScan, if_neg h1, if_pos h2]
        exact phaseScan_assigned_mem ph rest assigned blen j
      · by_cases h3 : ic.2.importance_score < ph.min_importance
        · rw [phaseScan, if_neg h1, if_neg h2, if_pos h3]
          exact phaseScan_assigned_mem ph rest assigned blen j
        · by_cases h4 : ph.max_contours ≤ blen + 1
          · rw [phaseScan, if_neg h1, if_neg h2, if_neg h3, if_pos h4]
            intro hj
            rcases List.mem_cons.1 hj with h | h
            · exact Or.inl (by simp [h])
            · exact Or.inr h
          · rw [phaseScan, if_neg h1, if_neg h2, if_neg h3, if_neg h4]
            intro hj
            rcases phaseScan_assigned_mem ph rest (ic.1 :: assigned)
              (blen + 1) j hj with h | h
            · exact Or.inl (List.mem_cons_of_mem _ h)
            · rcases List.mem_cons.1 h with h | h
              · exact Or.inl (by simp [h])
              · exact Or.inr h

/-- A phase batch is a sublist of the scanned sequence: batches keep the
ranked input order. -/
theorem phaseScan_sublist (ph : Phase) :
    ∀ (l : List (ℕ × ContourAnalyzer.AnalyzedContour)) (assigned : List ℕ)
      (blen : ℕ), (phaseScan ph l assigned blen).1.Sublist l
  | [], _, _ => List.Sublist.refl []
  | ic :: rest, assigned, blen => by
    by_cases h1 : ic.1 ∈ assigned
    · rw [phaseScan, if_pos h1]
      exact (phaseScan_sublist ph rest assigned blen).cons ic
    · by_cases h2 : ic.2.tier ∉ ph.tiers
      · rw [phaseScan, if_neg h1, if_pos h2]
        exact (phaseScan_sublist ph rest assigned blen).cons ic
      · by_cases h3 : ic.2.importance_score < ph.min_importance
        · rw [phaseScan, if_neg h1, if_neg h2, if_pos h3]
          exact (phaseScan_sublist ph rest assigned blen).cons ic
        · by_cases h4 : ph.max_contours ≤ blen + 1
          · rw [phaseScan, if_neg h1, if_neg h2, if_neg h3, if_pos h4]
            exact (List.nil_sublist rest).cons₂ ic
          · rw [phaseScan, if_neg h1, if_neg h2, if_neg h3, if_neg h4]
            exact (phaseScan_sublist ph rest
              (ic.1 :: assigned) (blen + 1)).cons₂ ic

/-- Core exchange property of one phase scan: the pairs not yet assigned
split, up to permutation, into the batch the scan picks and the pairs
still unassigned afterwards.  Holds whenever the scanned indices are
pairwise distinct. -/
theorem phaseScan_perm (ph : Phase) :
    ∀ (l : List (ℕ × ContourAnalyzer.AnalyzedContour)) (assigned : List ℕ)
      (blen : ℕ), (l.map Prod.fst).Nodup →
      List.Perm (l.filter (fun q => decide (q.1 ∉ assigned)))
        ((phaseScan ph l assigned blen).1 ++
          l.filter (fun q => decide (q.1 ∉ (phaseScan ph l assigned blen).2)))
  | [], assigned, blen, _ => by simp [phaseScan]
  | ic :: rest, assigned, blen, hnd => by
    have hfst : ic.1 ∉ rest.map Prod.fst := by
      simp only [List.map_cons, List.nodup_cons] at hnd
      exact hnd.1
    have hnd2 : (rest.map Prod.fst).Nodup := by
      simp only [List.map_cons, List.nodup_cons] at hnd
      exact hnd.2
    by_cases h1 : ic.1 ∈ assigned
    · rw [phaseScan, if_pos h1]
      rw [filter_skip h1,
          filter_skip (phaseScan_assigned_mono ph rest assigned blen h1)]
      exact phaseScan_perm ph rest assigned blen hnd2
    · by_cases h2 : ic.2.tier ∉ ph.tiers
      · rw [phaseScan, if_neg h1, if_pos h2]
        have hout : ic.1 ∉ (phaseScan ph rest assigned blen).2 := by
          intro hin
          rcases phaseScan_assigned_mem ph rest assigned blen ic.1 hin
            with h | h
          · exact hfst
              (((phaseScan_sublist ph rest assigned blen).map
                Prod.fst).subset h)
          · exact h1 h
        rw [filter_keep h1, filter_keep hout]
        exact ((phaseScan_perm ph rest assigned blen hnd2).cons ic).trans
          List.perm_middle.symm
      · by_cases h3 : ic.2.importance_score < ph.min_importance
        · rw [phaseScan, if_neg h1, if_neg h2, if_pos h3]
          have hout : ic.1 ∉ (phaseScan ph rest assigned blen).2 := by
            intro hin
            rcases phaseScan_assigned_mem ph rest assigned blen ic.1 hin
              with h | h
            · exact hfst
                (((phaseScan_sublist ph rest assigned blen).map
                  Prod.fst).subset h)
            · exact h1 h
          rw [filter_keep h1, filter_keep hout]
          exact ((phaseScan_perm ph rest assigned blen hnd2).cons ic).trans
            List.perm_middle.symm
        · by_cases h4 : ph.max_contours ≤ blen + 1
          · rw [phaseScan, if_neg h1, if_neg h2, if_neg h3, if_pos h4]
            rw [filter_keep h1,
                filter_skip (List.mem_cons_self ic.1 assigned),
                filter_notMem_cons hfst]
            exact List.Perm.refl _
          · rw [phaseScan, if_neg h1, if_neg h2, if_neg h3, if_neg h4]
            have hmem : ic.1 ∈
                (phaseScan ph rest (ic.1 :: assigned) (blen + 1)).2 :=
              phaseScan_assigned_mono ph rest (ic.1 :: assigned) (blen + 1)
                (List.mem_cons_self ic.1 assigned)
            rw [filter_keep h1, filter_skip hmem, ← filter_notMem_cons hfst]
            exact (phaseScan_perm ph rest (ic.1 :: assigned) (blen + 1)
              hnd2).cons ic

/-- Phase steps are never shading steps. -/
theorem planPhases_shading_false (indexed : List (ℕ × ContourAnalyzer.AnalyzedContour)) :
    ∀ (phs : List Phase) (assigned : List ℕ) (n : ℕ),
      ∀ s ∈ (planPhases indexed phs assigned n).1, s.is_shading_step = false
  | [], _, _ => by simp [planPhases]
  | ph :: phs, assigned, n => by
    cases hb : (phaseScan ph indexed assigned 0).1.isEmpty with
    | true =>
      simp only [planPhases, hb, if_true]
      exact planPhases_shading_false indexed phs _ n
    | false =>
      simp only [planPhases, hb, Bool.false_eq_true, if_false]
      intro s hs
      rcases List.mem_cons.1 hs with h | h
      · subst h; rfl
      · exact planPhases_shading_false indexed phs _ (n + 1) s h

/-- Every phase batch keeps the order of the scanned sequence. -/
theorem planPhases_batches_sublist
    (indexed : List (ℕ × ContourAnalyzer.AnalyzedContour)) :
    ∀ (phs : List Phase) (assigned : List ℕ) (n : ℕ),
      ∀ s ∈ (planPhases indexed phs assigned n).1,
        s.contours.Sublist (indexed.map Prod.snd)
  | [], _, _ => by simp [planPhases]
  | ph :: phs, assigned, n => by
    cases hb : (phaseScan ph indexed assigned 0).1.isEmpty with
    | true =>
      simp only [planPhases, hb, if_true]
      exact planPhases_batches_sublist indexed phs _ n
    | false =>
      simp only [planPhases, hb, Bool.false_eq_true, if_false]
      intro s hs
      rcases List.mem_cons.1 hs with h | h
      · subst h
        exact (phaseScan_sublist ph indexed assigned 0).map Prod.snd
      · exact planPhases_batches_sublist indexed phs _ (n + 1) s h

/-- The pairs unassigned before the phase loop split, up to permutation,
into the emitted phase batches and the pairs unassigned after it. -/
theorem planPhases_perm (indexed : List (ℕ × ContourAnalyzer.AnalyzedContour))
    (hnd : (indexed.map Prod.fst).Nodup) :
    ∀ (phs : List Phase) (assigned : List ℕ) (n : ℕ),
      List.Perm
        ((indexed.filter (fun q => decide (q.1 ∉ assigned))).map Prod.snd)
        (((planPhases indexed phs assigned n).1.map
            (fun s => s.contours)).join ++
          (indexed.filter (fun q =>
            decide (q.1 ∉ (planPhases indexed phs assigned n).2.1))).map
            Prod.snd)
  | [], assigned, n => by simp [planPhases]
  | ph :: phs, assigned, n => by
    have hsc := phaseScan_perm ph indexed assigned 0 hnd
    cases hb : (phaseScan ph indexed assigned 0).1.isEmpty with
    | true =>
      have hnil : (phaseScan ph indexed assigned 0).1 = [] :=
        List.isEmpty_iff.mp hb
      simp only [planPhases, hb, if_true]
      rw [hnil] at hsc
      exact ((List.Perm.map Prod.snd (hsc.trans (by simp))).trans
        (planPhases_perm indexed hnd phs _ n))
    | false =>
      simp only [planPhases, hb, Bool.false_eq_true, if_false,
        List.map_cons, List.join_cons, List.append_assoc]
      refine (hsc.map Prod.snd).trans ?_
      rw [List.map_append]
      exact List.Perm.append_left _
        (planPhases_perm indexed hnd phs _ (n + 1))

/-- Phase steps survive the non-shading filter unchanged. -/
theorem filter_not_shading_planPhases
    (indexed : List (ℕ × ContourAnalyzer.AnalyzedContour))
    (phs : List Phase) (assigned : List ℕ) (n : ℕ) :
    (planPhases indexed phs assigned n).1.filter
        (fun s => !s.is_shading_step) =
      (planPhases indexed phs assigned n).1 :=
  List.filter_eq_self.mpr (fun s hs => by
    rw [planPhases_shading_false indexed phs assigned n s hs]
    rfl)

/-- C2: the batches of the non-shading steps of a plan join to a
permutation of the ranked input (every contour appears exactly once), and
each batch lists its contours in ranked input order. -/
theorem plan_steps_batches_partition (cs : List ContourAnalyzer.AnalyzedContour)
    (inc : Bool) :
    List.Perm (nonShadingBatches (plan_steps cs inc)).join cs ∧
      List.Forall (fun b => b.Sublist cs)
        (nonShadingBatches (plan_steps cs inc)) := by
  have hnd := ContourAnalyzer.enumerate_fst_nodup 0 cs
  have hsnd := ContourAnalyzer.enumerate_map_snd 0 cs
  have hperm := planPhases_perm (ContourAnalyzer.enumerate 0 cs) hnd _PHASES [] 1
  have hnil : (ContourAnalyzer.enumerate 0 cs).filter
      (fun q => decide (q.1 ∉ ([] : List ℕ))) = ContourAnalyzer.enumerate 0 cs :=
    List.filter_eq_self.mpr (fun a _ => by simp)
  rw [hnil, hsnd] at hperm
  have hchar : nonShadingBatches (plan_steps cs inc) =
      [] :: ((planPhases (ContourAnalyzer.enumerate 0 cs) _PHASES [] 1).1.map
          (fun s => s.contours) ++
        (if (((ContourAnalyzer.enumerate 0 cs).filter (fun p =>
              decide (p.1 ∉ (planPhases (ContourAnalyzer.enumerate 0 cs)
                _PHASES [] 1).2.1))).map Prod.snd).isEmpty then []
         else [((ContourAnalyzer.enumerate 0 cs).filter (fun p =>
              decide (p.1 ∉ (planPhases (ContourAnalyzer.enumerate 0 cs)
                _PHASES [] 1).2.1))).map Prod.snd])) := by
    simp only [nonShadingBatches, plan_steps]
    set pp := planPhases (ContourAnalyzer.enumerate 0 cs) _PHASES [] 1
      with hpp
    set rm := ((ContourAnalyzer.enumerate 0 cs).filter (fun p =>
      decide (p.1 ∉ pp.2.1))).map Prod.snd with hrm
    have hfilt : pp.1.filter (fun s => !s.is_shading_step) = pp.1 := by
      rw [hpp]
      exact filter_not_shading_planPhases _ _ _ _
    by_cases hrem : rm.isEmpty <;>
      cases inc <;>
        simp [hrem, hfilt, List.filter_append, List.filter_map,
          Function.comp_def, List.map_map]
  constructor
  · rw [hchar]
    by_cases hrem : (((ContourAnalyzer.enumerate 0 cs).filter (fun p =>
        decide (p.1 ∉ (planPhases (ContourAnalyzer.enumerate 0 cs)
          _PHASES [] 1).2.1))).map Prod.snd).isEmpty
    · have hremnil := List.isEmpty_iff.mp hrem
      rw [hremnil] at hperm
      simp only [hrem, if_true, List.join_cons, List.nil_append,
        List.append_nil]
      rw [List.append_nil] at hperm
      exact hperm.symm
    · simp only [hrem, Bool.false_eq_true, if_false, List.join_cons,
        List.nil_append, List.join_append, List.join_cons, List.join_nil,
        List.append_nil]
      exact hperm.symm
  · rw [hchar, List.forall_iff_forall_mem]
    intro b hb
    rcases List.mem_cons.1 hb with h | h
    · subst h
      exact List.nil_sublist cs
    rcases List.mem_append.1 h with h | h
    · obtain ⟨s, hs, hcon⟩ := List.mem_map.1 h
      have := planPhases_batches_sublist (ContourAnalyzer.enumerate 0 cs)
        _PHASES [] 1 s hs
      rw [hsnd] at this
      exact hcon ▸ this
    · have hb2 : b = ((ContourAnalyzer.enumerate 0 cs).filter (fun p =>
          decide (p.1 ∉ (planPhases (ContourAnalyzer.enumerate 0 cs)
            _PHASES [] 1).2.1))).map Prod.snd := by
        by_cases hrem : (((ContourAnalyzer.enumerate 0 cs).filter (fun p =>
            decide (p.1 ∉ (planPhases (ContourAnalyzer.enumerate 0 cs)
              _PHASES [] 1).2.1))).map Prod.snd).isEmpty
        · rw [if_pos hrem] at h
          cases h
        · rw [if_neg hrem] at h
          rcases List.mem_cons.1 h with h | h
          · exact h
          · cases h
      have hsub : (((ContourAnalyzer.enumerate 0 cs).filter (fun p =>
          decide (p.1 ∉ (planPhases (ContourAnalyzer.enumerate 0 cs)
            _PHASES [] 1).2.1))).map Prod.snd).Sublist
          ((ContourAnalyzer.enumerate 0 cs).map Prod.snd) :=
        (List.filter_sublist _).map Prod.snd
      rw [hsnd] at hsub
      exact hb2 ▸ hsub
